import Mathlib

/-!
Shallow embedding of pybinding's structural-plotting module
(src/pybinding/system.py) and proofs about its behaviour.

Modelling conventions:
* numpy float64 coordinates are modelled as rationals (ℚ);
* a COO sparse matrix is modelled as its list of (row, col, value) triplets,
  in storage order (the aligned arrays row/col/data);
* numpy argmin returns the first index attaining the minimum; masked argmin
  (numpy.ma.argmin) treats masked entries as the fill value, which dominates
  every real distance — modelled as ⊤ in WithTop ℚ;
* Euclidean distances are compared through their squares: the square root is
  strictly monotone, so argmin over norms equals argmin over squared norms.
-/

namespace Pybinding

/-- First index of the minimum of a list together with that minimum, or
none for the empty list.  Models numpy argmin, which scans left to right and
only replaces the current best on a strictly smaller value, hence returns
the first occurrence of the minimum. -/
def argminAux {α : Type} [LinearOrder α] : List α → Option (ℕ × α)
  | [] => none
  | a :: l =>
    match argminAux l with
    | none => some (0, a)
    | some (j, m) => if a ≤ m then some (0, a) else some (j + 1, m)

/-- Index of the first minimum of a list (numpy argmin); 0 on the empty
list, where numpy would raise instead (callers below only use it on
non-empty input). -/
def argminIdx {α : Type} [LinearOrder α] (l : List α) : ℕ :=
  match argminAux l with
  | none => 0
  | some jm => jm.1

/-- One periodic boundary (class Boundary, system.py lines 27-41): a shift
vector and the sparse matrix of boundary hoppings, kept as COO triplets. -/
structure Boundary where
  shift : ℚ × ℚ × ℚ
  hoppings : List (ℕ × ℕ × ℕ)
  deriving DecidableEq

/-- Structural data of the model (class System, system.py lines 45-97):
per-site positions x, y, z, per-site sublattice IDs, the primary hopping
matrix as COO triplets (row, col, hop id) and the list of boundaries.
num_sites is the value reported by the native collaborator. -/
structure System where
  num_sites : ℕ
  x : List ℚ
  y : List ℚ
  z : List ℚ
  sublattices : List ℤ
  hoppings : List (ℕ × ℕ × ℕ)
  boundaries : List Boundary
  deriving DecidableEq

/-- Modelled from the spec: the invariant established by the native `_cpp`
builder, which is not under src/ — the three coordinate arrays and the
sublattice array all have length num_sites, and every bond index stored in
the primary matrix and in every boundary matrix is in [0, num_sites). -/
def System.WF (sys : System) : Prop :=
  sys.x.length = sys.num_sites ∧ sys.y.length = sys.num_sites ∧
  sys.z.length = sys.num_sites ∧ sys.sublattices.length = sys.num_sites ∧
  (∀ t ∈ sys.hoppings, t.1 < sys.num_sites ∧ t.2.1 < sys.num_sites) ∧
  (∀ b ∈ sys.boundaries, ∀ t ∈ b.hoppings, t.1 < sys.num_sites ∧ t.2.1 < sys.num_sites)

instance (sys : System) : Decidable sys.WF := by
  unfold System.WF; infer_instance

/-- The xyz property (system.py line 77): np.array(self.positions).T, the
N×3 row-per-site array of coordinates. -/
def System.xyzRows (sys : System) : List (List ℚ) :=
  List.zipWith (fun a bc => [a, bc.1, bc.2]) sys.x (List.zipWith Prod.mk sys.y sys.z)

/-- Squared Euclidean norm of xyz_row[:len r] - r (system.py line 120):
only the first (length of the query) coordinates of the site take part.
Distances are compared through their squares, which leaves argmin
unchanged because the square root is strictly monotone. -/
def sqDist (r p : List ℚ) : ℚ :=
  (((p.take r.length).zip r).map (fun ab => (ab.1 - ab.2) ^ 2)).sum

/-- Masked distances (system.py line 125): ma.array(distance,
mask=self.sublattices != at_sublattice).  A masked entry behaves as the
fill value, which exceeds every real distance; modelled as ⊤. -/
def maskedKeys (distance : List ℚ) (subs : List ℤ) (filt : ℤ) : List (WithTop ℚ) :=
  List.zipWith (fun (d : ℚ) (s : ℤ) => if s ≠ filt then (⊤ : WithTop ℚ) else (d : WithTop ℚ))
    distance subs

/-- The distance array of find_nearest (system.py line 120):
distance = np.linalg.norm(self.xyz[:, :len(r)] - r, axis=1), with norms
replaced by squared norms (argmin-equivalent). -/
def System.distList (sys : System) (r : List ℚ) : List ℚ :=
  sys.xyzRows.map (fun p => sqDist r p)

/-- The numpy fallback of System.find_nearest (system.py lines 117-126):
plain argmin of the distance array when at_sublattice < 0, argmin of the
masked distance array otherwise. -/
def System.find_nearest (sys : System) (position : List ℚ) (at_sublattice : ℤ) : ℕ :=
  if at_sublattice < 0 then argminIdx (sys.distList position)
  else argminIdx (maskedKeys (sys.distList position) sys.sublattices at_sublattice)

/-- Squared distance from the query point to site i, read off the xyz row
array exactly as the fallback in find_nearest does. -/
def System.distTo (sys : System) (r : List ℚ) (i : ℕ) : ℚ :=
  sqDist r (sys.xyzRows.getD i [])

/-- A one-site system: the only site sits at the origin on sublattice 0. -/
def sysOneSite : System :=
  { num_sites := 1, x := [0], y := [0], z := [0], sublattices := [0],
    hoppings := [], boundaries := [] }

/-- A two-site system used to instantiate the find_nearest theorem: sites
at x = 0 and x = 2 on sublattices 0 and 1. -/
def sysTwoSite : System :=
  { num_sites := 2, x := [0, 2], y := [0, 0], z := [0, 0], sublattices := [0, 1],
    hoppings := [], boundaries := [] }

/-- Comparison key used to model positions[2].argsort() (system.py line
303): sort by the third coordinate ascending; equal coordinates keep their
original index order, matching the stable depth-sort the spec describes
for the 2D renderer. -/
def keyR (z : List ℚ) (i j : ℕ) : Prop :=
  z.getD i 0 < z.getD j 0 ∨ (z.getD i 0 = z.getD j 0 ∧ i ≤ j)

instance keyRDecidable (z : List ℚ) : DecidableRel (keyR z) := by
  intro i j
  unfold keyR
  infer_instance

instance keyRTotal (z : List ℚ) : IsTotal ℕ (keyR z) := by
  constructor
  intro i j
  rcases lt_trichotomy (z.getD i 0) (z.getD j 0) with h | h | h
  · exact Or.inl (Or.inl h)
  · rcases Nat.le_total i j with hij | hij
    · exact Or.inl (Or.inr ⟨h, hij⟩)
    · exact Or.inr (Or.inr ⟨h.symm, hij⟩)
  · exact Or.inr (Or.inl h)

instance keyRTrans (z : List ℚ) : IsTrans ℕ (keyR z) := by
  constructor
  intro i j k hij hjk
  rcases hij with h1 | ⟨h1, h1'⟩
  · rcases hjk with h2 | ⟨h2, _⟩
    · exact Or.inl (h1.trans h2)
    · exact Or.inl (h2 ▸ h1)
  · rcases hjk with h2 | ⟨h2, h2'⟩
    · exact Or.inl (h1 ▸ h2)
    · exact Or.inr ⟨h1.trans h2, h1'.trans h2'⟩

/-- The depth-sort permutation the spec prescribes for the 2D renderer:
the permutation of [0, N) that sorts the third coordinate ascending with
ties kept in ascending index order — the unique permutation sorted under
the strict (value, index) key.  The source (system.py line 303) instead
calls positions[2].argsort() with numpy's default quicksort, which is
documented as not stable, so for tied coordinates beyond numpy's
small-array insertion-sort cutoff the program's tie order is an
implementation artifact and need not match this intended order (numpy
only guarantees it under kind='stable').  plot_sites below embeds the
intended order; nothing proved about it besides the depth-sort claim
itself depends on the tie order. -/
def argsort (z : List ℚ) : List ℕ :=
  List.insertionSort (keyR z) (List.range z.length)

/-- The radius argument of plot_sites: a scalar or a per-site array
(np.isscalar distinguishes the two in the source). -/
inductive Radius where
  | scalar (r : ℚ)
  | array (rs : List ℚ)
  deriving DecidableEq

/-- np.all(radius == 0) (system.py line 281): true for a zero scalar and
for an array of zeros, including the empty array. -/
def Radius.allZero : Radius → Bool
  | .scalar r => r == 0
  | .array rs => rs.all (fun q => q == 0)

/-- The colors keyword of plot_sites: absent/None, the named presets, or a
caller-provided palette. -/
inductive SiteColors where
  | noColors
  | defaultPalette
  | pairs
  | custom (cs : List String)
  deriving DecidableEq

/-- Default site palette (system.py lines 290-291). -/
def defaultSiteColorList : List String :=
  ["#377ec8", "#ff7f00", "#41ae76", "#e41a1c", "#984ea3", "#ffff00", "#a65628", "#f781bf"]

/-- The pairs site palette (system.py lines 293-294). -/
def pairsColorList : List String :=
  ["#a6cee3", "#1f78b4", "#b2df8a", "#33a02c", "#fb9a99", "#e31a1c",
   "#fdbf6f", "#ff7f00", "#cab2d6", "#6a3d9a"]

/-- Palette selection of plot_sites (system.py lines 288-294): falsy or
'default' picks the default palette ('not colors' also catches an empty
custom palette), 'pairs' picks the pairs palette, anything else passes
through. -/
def sitePalette : SiteColors → List String
  | .noColors => defaultSiteColorList
  | .defaultPalette => defaultSiteColorList
  | .pairs => pairsColorList
  | .custom cs => if cs.isEmpty then defaultSiteColorList else cs

/-- Modelled from the spec: pltutils.direct_cmap_norm (not under src/)
builds a discrete colormap-and-normalization pair from categorical data, a
palette and a blend factor; it is kept abstract as the pair of the palette
and blend it was given (spec section 4.3). -/
structure CmapNorm where
  palette : List String
  blend : ℚ
  deriving DecidableEq

/-- The colors keyword of plot_hoppings: absent (with_defaults supplies
the gray '#666666'), the 'default' preset, or a single color. -/
inductive HopColors where
  | auto
  | defaultPalette
  | single (c : String)
  deriving DecidableEq

/-- Color resolution of plot_hoppings (system.py lines 215-219). -/
def hopPalette : HopColors → List String
  | .auto => ["#666666"]
  | .defaultPalette =>
      ["#666666", "#1b9e77", "#7570b3", "#e7298a", "#66a61e", "#e6ab02", "#a6761d"]
  | .single c => [c]

/-- Componentwise sum of two 2D points. -/
def addP (p q : ℚ × ℚ) : ℚ × ℚ := (p.1 + q.1, p.2 + q.2)

/-- Componentwise difference of two 2D points. -/
def subP (p q : ℚ × ℚ) : ℚ × ℚ := (p.1 - q.1, p.2 - q.2)

/-- positions truncated to the first two axes and transposed to a list of
(x, y) points: np.array(positions[:ndims]).T with ndims = 2. -/
def pos2 (positions : List ℚ × List ℚ × List ℚ) : List (ℚ × ℚ) :=
  List.zipWith (fun a b => (a, b)) positions.1 positions.2.1

/-- offset truncated to the first two components: np.array(offset[:2]). -/
def off2 (offset : ℚ × ℚ × ℚ) : ℚ × ℚ := (offset.1, offset.2.1)

/-- Everything plot_hoppings (2D path) hands to the plotting substrate:
the colormap data, the line width, the line segments and the per-bond
category array given to set_array. -/
structure HopPlot where
  cmap : CmapNorm
  hopIdCount : ℕ
  width : ℚ
  segments : List ((ℚ × ℚ) × (ℚ × ℚ))
  segData : List ℕ
  deriving DecidableEq

/-- plot_hoppings (system.py lines 187-255), 2D path (ax.name is not
'3d'): no-op when the width is zero or the COO matrix stores no entries;
otherwise resolve colors, build the colormap over max(hop id) + 1
categories, truncate positions and offset to two axes, and emit one line
per bond — shifted rigidly by the offset in the non-boundary mode, and
twice asymmetrically ((i + offset, j) then (i, j - offset)) in the
boundary mode. -/
def plot_hoppings (positions : List ℚ × List ℚ × List ℚ) (hoppings : List (ℕ × ℕ × ℕ))
    (width : ℚ) (offset : ℚ × ℚ × ℚ) (boundary : Bool) (blend : ℚ)
    (colors : HopColors) : Option HopPlot :=
  if width = 0 ∨ hoppings = [] then none
  else
    let dataMax := (hoppings.map (fun t => t.2.2)).foldr max 0
    let p := pos2 positions
    let o := off2 offset
    let segments :=
      if boundary = false then
        hoppings.map (fun t => (addP (p.getD t.1 (0, 0)) o, addP (p.getD t.2.1 (0, 0)) o))
      else
        hoppings.map (fun t => (addP (p.getD t.1 (0, 0)) o, p.getD t.2.1 (0, 0))) ++
        hoppings.map (fun t => (p.getD t.1 (0, 0), subP (p.getD t.2.1 (0, 0)) o))
    some { cmap := ⟨hopPalette colors, blend⟩, hopIdCount := dataMax + 1, width := width,
           segments := segments, segData := hoppings.map (fun t => t.2.2) }

/-- Everything plot_sites (2D path) hands to the plotting substrate: the
colormap it built (none when the caller passed one), the depth-sort
permutation, and the radius, points and category data after that
reordering. -/
structure SitesPlot where
  builtCmap : Option CmapNorm
  order : List ℕ
  radius : Radius
  points : List (ℚ × ℚ)
  data : List ℤ
  deriving DecidableEq

/-- plot_sites (system.py lines 258-326), 2D path (ax.name is not '3d'):
no-op when the radius is uniformly zero; build the colormap from the
category data unless the caller passed one; offset the (x, y) points by
offset[:2]; depth-sort by the third coordinate and reorder a radius
array, the points and the data by the same permutation. -/
def plot_sites (positions : List ℚ × List ℚ × List ℚ) (data : List ℤ) (radius : Radius)
    (offset : ℚ × ℚ × ℚ) (blend : ℚ) (hasCmap : Bool) (colors : SiteColors) :
    Option SitesPlot :=
  if Radius.allZero radius then none
  else
    let builtCmap := if hasCmap then none else some (CmapNorm.mk (sitePalette colors) blend)
    let points := List.zipWith (fun a b => (a + (off2 offset).1, b + (off2 offset).2))
      positions.1 positions.2.1
    let idx := argsort positions.2.2
    let radius2 :=
      match radius with
      | .scalar r => Radius.scalar r
      | .array rs => Radius.array (idx.map (fun i => rs.getD i 0))
    some { builtCmap := builtCmap, order := idx, radius := radius2,
           points := idx.map (fun i => points.getD i (0, 0)),
           data := idx.map (fun i => data.getD i 0) }

/-- Componentwise negation of a 3-vector (for -boundary.shift). -/
def negV (v : ℚ × ℚ × ℚ) : ℚ × ℚ × ℚ := (-v.1, -v.2.1, -v.2.2)

/-- One call System.plot makes into the renderers, with every argument it
passes: either a plot_hoppings call or a plot_sites call. -/
inductive DrawCall where
  | hoppings (pos : List ℚ × List ℚ × List ℚ) (coo : List (ℕ × ℕ × ℕ)) (width : ℚ)
      (offset : ℚ × ℚ × ℚ) (boundary : Bool) (blend : ℚ) (colors : HopColors)
  | sites (pos : List ℚ × List ℚ × List ℚ) (data : List ℤ) (radius : ℚ)
      (offset : ℚ × ℚ × ℚ) (blend : ℚ)
  deriving DecidableEq

/-- The rotated position tuple of System.plot (system.py lines 156-157):
pos = tuple(pos[i] for i in rotate). -/
def rotatedPos (sys : System) (rotate : ℕ × ℕ × ℕ) :
    List ℚ × List ℚ × List ℚ :=
  ([sys.x, sys.y, sys.z].getD rotate.1 [], [sys.x, sys.y, sys.z].getD rotate.2.1 [],
   [sys.x, sys.y, sys.z].getD rotate.2.2 [])

/-- The two ghost draws System.plot makes for one shift of a boundary
(system.py lines 170-172): sites then hoppings at that offset, blend 0.5. -/
def ghostCalls (pos : List ℚ × List ℚ × List ℚ) (sub : List ℤ)
    (site_radius hopping_width : ℚ) (hop : List (ℕ × ℕ × ℕ)) (hcolors : HopColors)
    (shift : ℚ × ℚ × ℚ) : List DrawCall :=
  [DrawCall.sites pos sub site_radius shift (1 / 2),
   DrawCall.hoppings pos hop hopping_width shift false (1 / 2) hcolors]

/-- System.plot (system.py lines 128-184) as the sequence of renderer
calls it issues: main hoppings, main sites, then per boundary the ghost
site/hopping pairs at +shift and -shift and finally that boundary's own
hoppings with boundary=True at +shift.  boundary_color is an Option:
none models a falsy Python value (None or an empty string), some c a
truthy color, which replaces the colors entry of hopping_props. -/
def System.plot (sys : System) (site_radius hopping_width : ℚ)
    (boundary_color : Option String) (hcolors : HopColors)
    (rotate : ℕ × ℕ × ℕ) : List DrawCall :=
  let pos := rotatedPos sys rotate
  let sub := sys.sublattices
  let hop := sys.hoppings
  [DrawCall.hoppings pos hop hopping_width (0, 0, 0) false 1 hcolors,
   DrawCall.sites pos sub site_radius (0, 0, 0) 1] ++
  sys.boundaries.flatMap (fun b =>
    ([b.shift, negV b.shift].flatMap
      (ghostCalls pos sub site_radius hopping_width hop hcolors)) ++
    [DrawCall.hoppings pos b.hoppings hopping_width b.shift true 1
      (match boundary_color with
       | some c => HopColors.single c
       | none => hcolors)])

/-- A small well-formed system with one boundary, instantiating the
invariant theorem. -/
def sysWithBoundary : System :=
  { num_sites := 2, x := [0, 1], y := [0, 0], z := [0, 0], sublattices := [0, 1],
    hoppings := [(0, 1, 0)], boundaries := [Boundary.mk (1, 0, 0) [(1, 0, 1)]] }

/-- The external hopping-energy lookup table of a Lattice, with complex
energies modelled as (real part, imaginary part) pairs of rationals. -/
structure Lattice where
  hopping_energies : List (ℚ × ℚ)
  deriving DecidableEq

/-- get_energy inside plot_hopping_values (system.py lines 350-352): the
real part when the imaginary part is exactly zero, the full complex value
otherwise; out-of-range hopping IDs propagate as none. -/
def get_energy (lattice : Lattice) (hopping_id : ℕ) : Option (ℚ ⊕ (ℚ × ℚ)) :=
  (lattice.hopping_energies.get? hopping_id).map
    (fun t => if t.2 = 0 then Sum.inl t.1 else Sum.inr t)

/-- Componentwise halving of a 2D point. -/
def halfP (p : ℚ × ℚ) : ℚ × ℚ := (p.1 / 2, p.2 / 2)

/-- The first two coordinates of site i: system.xyz[:, :2][i]. -/
def System.pos2At (sys : System) (i : ℕ) : ℚ × ℚ := (sys.x.getD i 0, sys.y.getD i 0)

/-- plot_hopping_values (system.py lines 340-360): one annotation
(value, midpoint) per primary bond, and for every boundary bond two
annotations at the midpoints shifted by +shift[:2]/2 and -shift[:2]/2. -/
def plot_hopping_values (sys : System) (lattice : Lattice) :
    List (Option (ℚ ⊕ (ℚ × ℚ)) × (ℚ × ℚ)) :=
  sys.hoppings.map (fun t =>
    (get_energy lattice t.2.2, halfP (addP (sys.pos2At t.1) (sys.pos2At t.2.1)))) ++
  sys.boundaries.flatMap (fun b =>
    b.hoppings.flatMap (fun t =>
      [(get_energy lattice t.2.2,
        halfP (addP (addP (sys.pos2At t.1) (sys.pos2At t.2.1)) (off2 b.shift))),
       (get_energy lattice t.2.2,
        halfP (subP (addP (sys.pos2At t.1) (sys.pos2At t.2.1)) (off2 b.shift)))]))

/-- A system with one real-energy bond: the annotated value is the bare
real part. -/
def sysAnnotated : System :=
  { num_sites := 2, x := [0, 2], y := [0, 0], z := [0, 0], sublattices := [0, 0],
    hoppings := [(0, 1, 0)], boundaries := [] }

/-- Lookup table with one purely real and one truly complex energy. -/
def latticeAnnotated : Lattice := { hopping_energies := [(3, 0), (1, 2)] }

theorem argminAux_none_iff {α : Type} [LinearOrder α] (l : List α) :
    argminAux l = none ↔ l = [] := by
  cases l with
  | nil => simp [argminAux]
  | cons a l =>
    simp only [argminAux]
    cases h : argminAux l with
    | none => simp
    | some jm =>
      rcases jm with ⟨j, m⟩
      by_cases hle : a ≤ m <;> simp [hle]

theorem argminAux_spec {α : Type} [LinearOrder α] :
    ∀ (l : List α) (j : ℕ) (m : α), argminAux l = some (j, m) →
      j < l.length ∧ l.get? j = some m ∧
      (∀ i v, l.get? i = some v → m ≤ v) ∧
      (∀ i v, i < j → l.get? i = some v → m < v) := by
  intro l
  induction l with
  | nil => intro j m h; simp [argminAux] at h
  | cons a l ih =>
    intro j m h
    simp only [argminAux] at h
    cases hl : argminAux l with
    | none =>
      have hnil : l = [] := (argminAux_none_iff l).mp hl
      subst hnil
      rw [hl] at h
      simp only [Option.some.injEq, Prod.mk.injEq] at h
      obtain ⟨hj, hm⟩ := h
      subst hj; subst hm
      refine ⟨by simp, by simp, ?_, ?_⟩
      · intro i v hv
        cases i with
        | zero => simp at hv; simp [hv]
        | succ i => simp at hv
      · intro i v hi; omega
    | some jm =>
      rcases jm with ⟨j', m'⟩
      rw [hl] at h
      have IH := ih j' m' hl
      by_cases hle : a ≤ m'
      · simp only [hle, if_true, Option.some.injEq, Prod.mk.injEq] at h
        obtain ⟨hj, hm⟩ := h
        subst hj; subst hm
        refine ⟨by simp, by simp, ?_, ?_⟩
        · intro i v hv
          cases i with
          | zero => simp at hv; simp [hv]
          | succ i =>
            simp only [List.get?_cons_succ] at hv
            exact le_trans hle (IH.2.2.1 i v hv)
        · intro i v hi; omega
      · simp only [hle, if_false, Option.some.injEq, Prod.mk.injEq] at h
        obtain ⟨hj, hm⟩ := h
        subst hj; subst hm
        have hlt : m' < a := lt_of_not_ge hle
        refine ⟨by simpa using Nat.succ_lt_succ IH.1, by simpa using IH.2.1, ?_, ?_⟩
        · intro i v hv
          cases i with
          | zero => simp at hv; subst hv; exact le_of_lt hlt
          | succ i =>
            simp only [List.get?_cons_succ] at hv
            exact IH.2.2.1 i v hv
        · intro i v hi hv
          cases i with
          | zero => simp at hv; subst hv; exact hlt
          | succ i =>
            simp only [List.get?_cons_succ] at hv
            exact IH.2.2.2 i v (by omega) hv

theorem argminIdx_spec {α : Type} [LinearOrder α] (l : List α) (hne : l ≠ []) :
    ∃ m, l.get? (argminIdx l) = some m ∧ argminIdx l < l.length ∧
      (∀ i v, l.get? i = some v → m ≤ v) ∧
      (∀ i v, i < argminIdx l → l.get? i = some v → m < v) := by
  cases h : argminAux l with
  | none => exact absurd ((argminAux_none_iff l).mp h) hne
  | some jm =>
    rcases jm with ⟨j, m⟩
    have hs := argminAux_spec l j m h
    have hidx : argminIdx l = j := by simp [argminIdx, h]
    rw [hidx]
    exact ⟨m, hs.2.1, hs.1, hs.2.2.1, hs.2.2.2⟩

theorem xyzRows_length (sys : System) (hwf : sys.WF) :
    sys.xyzRows.length = sys.num_sites := by
  obtain ⟨hx, hy, hz, -, -, -⟩ := hwf
  simp [System.xyzRows, hx, hy, hz]

theorem distList_get? (sys : System) (r : List ℚ) (i : ℕ)
    (hi : i < sys.xyzRows.length) :
    (sys.distList r).get? i = some (sys.distTo r i) := by
  rcases List.get?_eq_some.mpr ⟨hi, rfl⟩ with hv
  rw [System.distList, List.get?_map, hv]
  simp [System.distTo, List.getD_eq_get?, hv, List.getElem?_eq_getElem hi]

theorem distList_length (sys : System) (r : List ℚ) :
    (sys.distList r).length = sys.xyzRows.length := by
  simp [System.distList]

theorem maskedKeys_get? (distance : List ℚ) (subs : List ℤ) (filt : ℤ) (i : ℕ)
    (d : ℚ) (s : ℤ) (hd : distance.get? i = some d) (hs : subs.get? i = some s) :
    (maskedKeys distance subs filt).get? i =
      some (if s ≠ filt then (⊤ : WithTop ℚ) else (d : WithTop ℚ)) := by
  rw [maskedKeys, List.get?_zipWith', hd, hs]
  rfl

theorem maskedKeys_length (distance : List ℚ) (subs : List ℤ) (filt : ℤ) :
    (maskedKeys distance subs filt).length = min distance.length subs.length := by
  simp [maskedKeys]

/-- C2: on a non-empty well-formed system, the numpy fallback of
find_nearest returns an in-range site index that minimizes the (squared)
Euclidean distance to the query, measured in the first (length of query)
coordinates; with a non-negative sublattice filter whose domain is
non-empty, the returned site carries the filtered sublattice ID and
minimizes the distance among the filtered sites; and in both cases any
other minimizing site has a higher index (first-occurrence tie-break). -/
theorem C2_find_nearest_minimizes (sys : System) (r : List ℚ) (filt : ℤ)
    (hwf : sys.WF) (hpos : 0 < sys.num_sites) (hr : r.length ≤ 3)
    (hdom : 0 ≤ filt → ∃ i, i < sys.num_sites ∧ sys.sublattices.get? i = some filt) :
    sys.find_nearest r filt < sys.num_sites ∧
    (0 ≤ filt → sys.sublattices.get? (sys.find_nearest r filt) = some filt) ∧
    (∀ j, j < sys.num_sites → (filt < 0 ∨ sys.sublattices.get? j = some filt) →
      sys.distTo r (sys.find_nearest r filt) ≤ sys.distTo r j ∧
      (j < sys.find_nearest r filt → sys.distTo r (sys.find_nearest r filt) < sys.distTo r j)) := by
  have hrow : sys.xyzRows.length = sys.num_sites := xyzRows_length sys hwf
  have hsub : sys.sublattices.length = sys.num_sites := hwf.2.2.2.1
  have hdlen : (sys.distList r).length = sys.num_sites := by
    rw [distList_length, hrow]
  have hdget : ∀ i, i < sys.num_sites → (sys.distList r).get? i = some (sys.distTo r i) := by
    intro i hi
    exact distList_get? sys r i (by omega)
  by_cases hflt : filt < 0
  · -- unmasked branch: plain argmin over all sites
    have hfn : sys.find_nearest r filt = argminIdx (sys.distList r) := by
      rw [System.find_nearest, if_pos hflt]
    have hne : sys.distList r ≠ [] := by
      intro h
      rw [h] at hdlen
      simp at hdlen
      omega
    obtain ⟨m, hmget, hmlt, hmin, hfirst⟩ := argminIdx_spec (sys.distList r) hne
    have hnN : argminIdx (sys.distList r) < sys.num_sites := by omega
    have hmval : m = sys.distTo r (argminIdx (sys.distList r)) := by
      have h2 := hdget _ hnN
      rw [hmget] at h2
      exact (Option.some.injEq _ _).mp h2.symm |>.symm
    refine ⟨hfn ▸ hnN, ?_, ?_⟩
    · intro h0; omega
    · intro j hj _
      have hdj := hdget j hj
      rw [hfn]
      exact ⟨hmval ▸ hmin j _ hdj, fun hjn => hmval ▸ hfirst j _ (hfn ▸ hjn) hdj⟩
  · -- masked branch: argmin restricted to the filtered sublattice
    have h0 : 0 ≤ filt := not_lt.mp hflt
    have hfn : sys.find_nearest r filt =
        argminIdx (maskedKeys (sys.distList r) sys.sublattices filt) := by
      rw [System.find_nearest, if_neg hflt]
    have hklen : (maskedKeys (sys.distList r) sys.sublattices filt).length = sys.num_sites := by
      rw [maskedKeys_length, hdlen, hsub, min_self]
    have hkeys : ∀ i, i < sys.num_sites → ∀ s, sys.sublattices.get? i = some s →
        (maskedKeys (sys.distList r) sys.sublattices filt).get? i =
          some (if s ≠ filt then (⊤ : WithTop ℚ) else (sys.distTo r i : WithTop ℚ)) := by
      intro i hi s hs
      exact maskedKeys_get? _ _ filt i _ s (hdget i hi) hs
    have hkne : maskedKeys (sys.distList r) sys.sublattices filt ≠ [] := by
      intro h
      rw [h] at hklen
      simp at hklen
      omega
    obtain ⟨m, hmget, hmlt, hmin, hfirst⟩ := argminIdx_spec _ hkne
    have hnN : argminIdx (maskedKeys (sys.distList r) sys.sublattices filt) < sys.num_sites := by
      omega
    obtain ⟨i0, hi0, hs0⟩ := hdom h0
    have hk0 := hkeys i0 hi0 filt hs0
    simp only [ne_eq, not_true_eq_false, if_neg, ite_false] at hk0
    have hmle : m ≤ (sys.distTo r i0 : WithTop ℚ) := hmin i0 _ hk0
    have hmtop : m ≠ ⊤ := by
      intro htop
      rw [htop] at hmle
      exact WithTop.not_top_le_coe _ hmle
    obtain ⟨sn, hsn⟩ :
        ∃ s, sys.sublattices.get? (argminIdx (maskedKeys (sys.distList r) sys.sublattices filt)) =
          some s := by
      cases h : sys.sublattices.get? (argminIdx (maskedKeys (sys.distList r) sys.sublattices filt))
        with
      | none => exact absurd (List.get?_eq_none.mp h) (by omega)
      | some s => exact ⟨s, rfl⟩
    have hkn := hkeys _ hnN _ hsn
    rw [hmget] at hkn
    have hmeq := (Option.some.injEq _ _).mp hkn.symm
    by_cases hsneq : sn = filt
    · have hmval : m = (sys.distTo r (argminIdx (maskedKeys (sys.distList r) sys.sublattices filt)) :
          WithTop ℚ) := by
        rw [← hmeq]
        simp [hsneq]
      refine ⟨hfn ▸ hnN, fun _ => hfn ▸ (hsneq ▸ hsn), ?_⟩
      intro j hj hcond
      have hsj : sys.sublattices.get? j = some filt := by
        rcases hcond with hneg | hsj
        · omega
        · exact hsj
      have hkj := hkeys j hj filt hsj
      simp only [ne_eq, not_true_eq_false, if_neg, ite_false] at hkj
      constructor
      · have := hmin j _ hkj
        rw [hmval] at this
        rw [hfn]
        exact_mod_cast this
      · intro hjn
        have := hfirst j _ (hfn ▸ hjn) hkj
        rw [hmval] at this
        rw [hfn]
        exact_mod_cast this
    · exfalso
      apply hmtop
      rw [← hmeq]
      simp [hsneq]

/-- C1: the numpy fallback of find_nearest does not signal an empty-domain
error when the sublattice filter matches no site.  On a system whose only
site is on sublattice 0, querying with at_sublattice = 1 masks every
distance, and numpy ma.argmin of a fully masked array returns 0, so the
call returns site index 0 instead of raising. -/
theorem C1_empty_filter_returns_index_zero :
    sysOneSite.find_nearest [0, 0] 1 = 0 := by
  decide

theorem C2_find_nearest_minimizes_witness :
    sysTwoSite.WF ∧ 0 < sysTwoSite.num_sites ∧ ([3, 0] : List ℚ).length ≤ 3 ∧
    (sysTwoSite.find_nearest [3, 0] 1 < sysTwoSite.num_sites ∧
      (0 ≤ (1 : ℤ) → sysTwoSite.sublattices.get? (sysTwoSite.find_nearest [3, 0] 1) = some 1) ∧
      (∀ j, j < sysTwoSite.num_sites →
        ((1 : ℤ) < 0 ∨ sysTwoSite.sublattices.get? j = some 1) →
        sysTwoSite.distTo [3, 0] (sysTwoSite.find_nearest [3, 0] 1) ≤ sysTwoSite.distTo [3, 0] j ∧
        (j < sysTwoSite.find_nearest [3, 0] 1 →
          sysTwoSite.distTo [3, 0] (sysTwoSite.find_nearest [3, 0] 1) <
            sysTwoSite.distTo [3, 0] j))) :=
  ⟨by decide, by decide, by decide,
    C2_find_nearest_minimizes sysTwoSite [3, 0] 1 (by decide) (by decide) (by decide)
      (fun _ => ⟨1, by decide, by decide⟩)⟩

theorem argsort_perm (z : List ℚ) : (argsort z).Perm (List.range z.length) :=
  List.perm_insertionSort (keyR z) (List.range z.length)

theorem argsort_sorted (z : List ℚ) : List.Pairwise (keyR z) (argsort z) :=
  List.sorted_insertionSort (keyR z) (List.range z.length)

theorem argsort_nodup (z : List ℚ) : (argsort z).Nodup :=
  (argsort_perm z).nodup_iff.mpr (List.nodup_range _)

theorem argsort_pairwise_strict (z : List ℚ) :
    List.Pairwise (fun i j => z.getD i 0 < z.getD j 0 ∨
      (z.getD i 0 = z.getD j 0 ∧ i < j)) (argsort z) := by
  have h := (argsort_sorted z).and (argsort_nodup z)
  refine h.imp ?_
  rintro i j ⟨hk, hne⟩
  rcases hk with h1 | ⟨h1, h1'⟩
  · exact Or.inl h1
  · exact Or.inr ⟨h1, lt_of_le_of_ne h1' hne⟩

/-- C3: the depth-sort order the spec prescribes, evaluated at the spec's
concrete input — the stable ties-by-index permutation of
z = [0.5, -1, 0.2, -1] is [1, 3, 2, 0], a permutation of [0, 4) sorted
under the strict (coordinate, index) key.  The source, however, computes
the drawing order with positions[2].argsort() under numpy's default
quicksort, which is documented as not stable: for tied coordinates beyond
numpy's small-array insertion-sort cutoff the program's tie order is not
guaranteed to be index-ascending, so the claim's universal stability
statement is the spec's intent (numpy's kind='stable') rather than a
guarantee of the code as written. -/
theorem C3_intended_stable_order :
    argsort [1/2, -1, 1/5, -1] = [1, 3, 2, 0] ∧
    ([1, 3, 2, 0] : List ℕ).Perm (List.range 4) ∧
    List.Pairwise (fun i j => ([1/2, -1, 1/5, -1] : List ℚ).getD i 0 <
        ([1/2, -1, 1/5, -1] : List ℚ).getD j 0 ∨
      (([1/2, -1, 1/5, -1] : List ℚ).getD i 0 =
          ([1/2, -1, 1/5, -1] : List ℚ).getD j 0 ∧ i < j)) [1, 3, 2, 0] := by
  refine ⟨?_, by decide, ?_⟩
  · rw [argsort]
    norm_num [keyR, List.insertionSort, List.orderedInsert, List.range_succ]
  · norm_num [List.pairwise_cons]

/-- C4: with a nonzero width and a non-empty bond matrix, plot_hoppings
with boundary=True emits exactly 2n segments — for each stored bond
(i, j) one segment position[i] + offset → position[j] and one segment
position[i] → position[j] - offset — while boundary=False emits exactly n
segments position[i] + offset → position[j] + offset. -/
theorem C4_boundary_segment_doubling (positions : List ℚ × List ℚ × List ℚ)
    (hoppings : List (ℕ × ℕ × ℕ)) (width : ℚ) (offset : ℚ × ℚ × ℚ) (blend : ℚ)
    (colors : HopColors) (hw : width ≠ 0) (hn : hoppings ≠ []) :
    (∃ res, plot_hoppings positions hoppings width offset true blend colors = some res ∧
      res.segments =
        hoppings.map (fun t =>
          (addP ((pos2 positions).getD t.1 (0, 0)) (off2 offset),
            (pos2 positions).getD t.2.1 (0, 0))) ++
        hoppings.map (fun t =>
          ((pos2 positions).getD t.1 (0, 0),
            subP ((pos2 positions).getD t.2.1 (0, 0)) (off2 offset))) ∧
      res.segments.length = 2 * hoppings.length) ∧
    (∃ res, plot_hoppings positions hoppings width offset false blend colors = some res ∧
      res.segments =
        hoppings.map (fun t =>
          (addP ((pos2 positions).getD t.1 (0, 0)) (off2 offset),
            addP ((pos2 positions).getD t.2.1 (0, 0)) (off2 offset))) ∧
      res.segments.length = hoppings.length) := by
  constructor
  · rw [plot_hoppings, if_neg (by simp [hw, hn])]
    refine ⟨_, rfl, rfl, ?_⟩
    simp only [Bool.true_eq_false, if_false, List.length_append, List.length_map]
    omega
  · rw [plot_hoppings, if_neg (by simp [hw, hn])]
    refine ⟨_, rfl, rfl, ?_⟩
    simp

/-- Concrete instantiation of the boundary doubling theorem: one bond,
sites at x = 0 and x = 1, offset (2, 0, 0). -/
theorem C4_boundary_segment_doubling_witness :
    (1 : ℚ) ≠ 0 ∧ ([((0 : ℕ), (1 : ℕ), (0 : ℕ))] : List (ℕ × ℕ × ℕ)) ≠ [] ∧
    ((∃ res, plot_hoppings ([0, 1], [0, 0], [0, 0]) [(0, 1, 0)] 1 (2, 0, 0) true 1
          HopColors.auto = some res ∧
        res.segments =
          ([(0, 1, 0)] : List (ℕ × ℕ × ℕ)).map (fun t =>
            (addP ((pos2 ([0, 1], [0, 0], [0, 0])).getD t.1 (0, 0)) (off2 (2, 0, 0)),
              (pos2 ([0, 1], [0, 0], [0, 0])).getD t.2.1 (0, 0))) ++
          ([(0, 1, 0)] : List (ℕ × ℕ × ℕ)).map (fun t =>
            ((pos2 ([0, 1], [0, 0], [0, 0])).getD t.1 (0, 0),
              subP ((pos2 ([0, 1], [0, 0], [0, 0])).getD t.2.1 (0, 0)) (off2 (2, 0, 0)))) ∧
        res.segments.length = 2 * ([(0, 1, 0)] : List (ℕ × ℕ × ℕ)).length) ∧
      (∃ res, plot_hoppings ([0, 1], [0, 0], [0, 0]) [(0, 1, 0)] 1 (2, 0, 0) false 1
          HopColors.auto = some res ∧
        res.segments =
          ([(0, 1, 0)] : List (ℕ × ℕ × ℕ)).map (fun t =>
            (addP ((pos2 ([0, 1], [0, 0], [0, 0])).getD t.1 (0, 0)) (off2 (2, 0, 0)),
              addP ((pos2 ([0, 1], [0, 0], [0, 0])).getD t.2.1 (0, 0)) (off2 (2, 0, 0)))) ∧
        res.segments.length = ([(0, 1, 0)] : List (ℕ × ℕ × ℕ)).length)) :=
  ⟨by norm_num, by simp,
    C4_boundary_segment_doubling ([0, 1], [0, 0], [0, 0]) [(0, 1, 0)] 1 (2, 0, 0) 1
      HopColors.auto (by norm_num) (by simp)⟩

/-- C5: plot_hoppings with zero width or an empty bond matrix, and
plot_sites with a uniformly zero radius, draw nothing and raise nothing:
in the embedding they return none, producing no primitives. -/
theorem C5_zero_size_noop (positions : List ℚ × List ℚ × List ℚ)
    (hoppings : List (ℕ × ℕ × ℕ)) (width : ℚ) (offset : ℚ × ℚ × ℚ)
    (boundary : Bool) (blend : ℚ) (colors : HopColors) (data : List ℤ)
    (radius : Radius) (hasCmap : Bool) (scolors : SiteColors) :
    (width = 0 ∨ hoppings = [] →
      plot_hoppings positions hoppings width offset boundary blend colors = none) ∧
    (Radius.allZero radius = true →
      plot_sites positions data radius offset blend hasCmap scolors = none) := by
  constructor
  · intro h
    rw [plot_hoppings, if_pos h]
  · intro h
    rw [plot_sites, h]
    simp

/-- Concrete zero-size calls: zero width, empty bond list, zero scalar
radius and the empty radius array all produce nothing. -/
theorem C5_zero_size_noop_witness :
    ((0 : ℚ) = 0 ∨ ([((0 : ℕ), (1 : ℕ), (0 : ℕ))] : List (ℕ × ℕ × ℕ)) = []) ∧
    Radius.allZero (Radius.scalar 0) = true ∧
    plot_hoppings ([0], [0], [0]) [(0, 1, 0)] 0 (0, 0, 0) false 1 HopColors.auto = none ∧
    plot_sites ([0], [0], [0]) [0] (Radius.scalar 0) (0, 0, 0) 1 false
      SiteColors.noColors = none :=
  ⟨Or.inl rfl, by decide,
    (C5_zero_size_noop ([0], [0], [0]) [(0, 1, 0)] 0 (0, 0, 0) false 1 HopColors.auto [0]
      (Radius.scalar 0) false SiteColors.noColors).1 (Or.inl rfl),
    (C5_zero_size_noop ([0], [0], [0]) [(0, 1, 0)] 0 (0, 0, 0) false 1 HopColors.auto [0]
      (Radius.scalar 0) false SiteColors.noColors).2 (by decide)⟩

/-- C6 counterexample: plot_sites called with zero-size category data (no
sites) but the usual nonzero scalar radius does not return before
colormap construction — the radius check np.all(radius == 0) is false, so
the call goes on to build a colormap from the empty data. -/
theorem C6_counterexample_sites_reach_cmap :
    (plot_sites ([], [], []) [] (Radius.scalar 1) (0, 0, 0) 1 false
        SiteColors.noColors).map (fun res => res.builtCmap.isSome) = some true := by
  rw [plot_sites]
  norm_num [Radius.allZero]

/-- C6 amended: plot_hoppings with zero-size bond data returns before
colormap construction and does not raise; plot_sites short-circuits only
through the radius check, so it returns early exactly when the radius is
uniformly zero — in particular for a zero-size per-site radius array —
while with a nonzero scalar radius and zero-size category data it
proceeds to colormap construction (and still does not raise). -/
theorem C6_amended_zero_size_data (positions : List ℚ × List ℚ × List ℚ)
    (width : ℚ) (offset : ℚ × ℚ × ℚ) (boundary : Bool) (blend : ℚ)
    (colors : HopColors) (scolors : SiteColors) (r : ℚ) :
    plot_hoppings positions [] width offset boundary blend colors = none ∧
    plot_sites positions [] (Radius.array []) offset blend false scolors = none ∧
    (r ≠ 0 → (plot_sites positions [] (Radius.scalar r) offset blend false scolors).map
      (fun res => res.builtCmap.isSome) = some true) := by
  refine ⟨?_, ?_, ?_⟩
  · rw [plot_hoppings, if_pos (Or.inr rfl)]
  · rw [plot_sites]
    simp [Radius.allZero]
  · intro hr
    rw [plot_sites]
    simp [Radius.allZero, hr]

/-- Concrete zero-size-data calls for the amended statement, with radius
0.025 as in System.plot's default. -/
theorem C6_amended_zero_size_data_witness :
    (1 : ℚ) / 40 ≠ 0 ∧
    (plot_hoppings ([], [], []) [] 1 (0, 0, 0) false 1 HopColors.auto = none ∧
      plot_sites ([], [], []) [] (Radius.array []) (0, 0, 0) 1 false
        SiteColors.noColors = none ∧
      ((1 : ℚ) / 40 ≠ 0 →
        (plot_sites ([], [], []) [] (Radius.scalar (1 / 40)) (0, 0, 0) 1 false
          SiteColors.noColors).map (fun res => res.builtCmap.isSome) = some true)) :=
  ⟨by norm_num,
    C6_amended_zero_size_data ([], [], []) 1 (0, 0, 0) false 1 HopColors.auto
      SiteColors.noColors (1 / 40)⟩

/-- C10: in 2D mode the third component of the offset is irrelevant: both
renderers truncate positions and offset to the first two axes, and the
depth-sort key of plot_sites is the unshifted third coordinate, so two
calls differing only in the offset's third component produce identical
results. -/
theorem C10_offset_third_component_irrelevant (positions : List ℚ × List ℚ × List ℚ)
    (hoppings : List (ℕ × ℕ × ℕ)) (width : ℚ) (ox oy oz oz2 : ℚ) (boundary : Bool)
    (blend : ℚ) (colors : HopColors) (data : List ℤ) (radius : Radius)
    (blend2 : ℚ) (hasCmap : Bool) (scolors : SiteColors) :
    plot_hoppings positions hoppings width (ox, oy, oz) boundary blend colors =
      plot_hoppings positions hoppings width (ox, oy, oz2) boundary blend colors ∧
    plot_sites positions data radius (ox, oy, oz) blend2 hasCmap scolors =
      plot_sites positions data radius (ox, oy, oz2) blend2 hasCmap scolors :=
  ⟨rfl, rfl⟩

/-- C7: System.plot issues its draw calls in exactly the order the spec
states — primary bonds, primary sites, then for every boundary the full
primary site and bond sets at +shift and at -shift with blend 0.5, and
that boundary's own bond set once with boundary=True at +shift — the
boundary bonds colored with the boundary color when one is given and with
the normal bond coloring when it is falsy. -/
theorem C7_plot_call_order (sys : System) (site_radius hopping_width : ℚ)
    (hcolors : HopColors) (rotate : ℕ × ℕ × ℕ) (c : String) :
    (sys.plot site_radius hopping_width (some c) hcolors rotate =
      [DrawCall.hoppings (rotatedPos sys rotate) sys.hoppings hopping_width (0, 0, 0)
        false 1 hcolors,
       DrawCall.sites (rotatedPos sys rotate) sys.sublattices site_radius (0, 0, 0) 1] ++
      sys.boundaries.flatMap (fun b =>
        [DrawCall.sites (rotatedPos sys rotate) sys.sublattices site_radius b.shift (1 / 2),
         DrawCall.hoppings (rotatedPos sys rotate) sys.hoppings hopping_width b.shift
           false (1 / 2) hcolors,
         DrawCall.sites (rotatedPos sys rotate) sys.sublattices site_radius
           (negV b.shift) (1 / 2),
         DrawCall.hoppings (rotatedPos sys rotate) sys.hoppings hopping_width
           (negV b.shift) false (1 / 2) hcolors,
         DrawCall.hoppings (rotatedPos sys rotate) b.hoppings hopping_width b.shift
           true 1 (HopColors.single c)])) ∧
    (sys.plot site_radius hopping_width none hcolors rotate =
      [DrawCall.hoppings (rotatedPos sys rotate) sys.hoppings hopping_width (0, 0, 0)
        false 1 hcolors,
       DrawCall.sites (rotatedPos sys rotate) sys.sublattices site_radius (0, 0, 0) 1] ++
      sys.boundaries.flatMap (fun b =>
        [DrawCall.sites (rotatedPos sys rotate) sys.sublattices site_radius b.shift (1 / 2),
         DrawCall.hoppings (rotatedPos sys rotate) sys.hoppings hopping_width b.shift
           false (1 / 2) hcolors,
         DrawCall.sites (rotatedPos sys rotate) sys.sublattices site_radius
           (negV b.shift) (1 / 2),
         DrawCall.hoppings (rotatedPos sys rotate) sys.hoppings hopping_width
           (negV b.shift) false (1 / 2) hcolors,
         DrawCall.hoppings (rotatedPos sys rotate) b.hoppings hopping_width b.shift
           true 1 hcolors])) := by
  constructor <;>
    simp [System.plot, ghostCalls, List.flatMap]

/-- C8: on a well-formed system the coordinate and sublattice sequences
all have length num_sites, every stored bond index (primary and boundary)
is in [0, num_sites), and the derived read-only views computed by the
accessors and renderers preserve the invariant: the xyz row array has one
length-3 row per site and the 2D point list has one point per site.  All
operations in the embedding are pure functions of the System, which is
never mutated. -/
theorem C8_structural_invariants (sys : System) (hwf : sys.WF) :
    sys.x.length = sys.num_sites ∧ sys.y.length = sys.num_sites ∧
    sys.z.length = sys.num_sites ∧ sys.sublattices.length = sys.num_sites ∧
    (∀ t ∈ sys.hoppings, t.1 < sys.num_sites ∧ t.2.1 < sys.num_sites) ∧
    (∀ b ∈ sys.boundaries, ∀ t ∈ b.hoppings,
      t.1 < sys.num_sites ∧ t.2.1 < sys.num_sites) ∧
    sys.xyzRows.length = sys.num_sites ∧
    (∀ i, i < sys.num_sites → (sys.xyzRows.getD i []).length = 3) ∧
    (pos2 (sys.x, sys.y, sys.z)).length = sys.num_sites := by
  obtain ⟨hx, hy, hz, hs, hh, hb⟩ := hwf
  refine ⟨hx, hy, hz, hs, hh, hb, xyzRows_length sys ⟨hx, hy, hz, hs, hh, hb⟩, ?_, ?_⟩
  · intro i hi
    obtain ⟨a, hxa⟩ : ∃ a, sys.x.get? i = some a := by
      cases h : sys.x.get? i with
      | none => exact absurd (List.get?_eq_none.mp h) (by omega)
      | some a => exact ⟨a, rfl⟩
    obtain ⟨bc, hbc⟩ : ∃ bc, (List.zipWith Prod.mk sys.y sys.z).get? i = some bc := by
      cases h : (List.zipWith Prod.mk sys.y sys.z).get? i with
      | none =>
        have := List.get?_eq_none.mp h
        rw [List.length_zipWith] at this
        omega
      | some bc => exact ⟨bc, rfl⟩
    have hrow : sys.xyzRows.get? i = some [a, bc.1, bc.2] := by
      rw [System.xyzRows, List.get?_zipWith', hxa, hbc]
      rfl
    rw [List.getD_eq_get?, hrow]
    rfl
  · simp [pos2, hx, hy]

theorem C8_structural_invariants_witness :
    sysWithBoundary.WF ∧
    (sysWithBoundary.x.length = sysWithBoundary.num_sites ∧
      sysWithBoundary.y.length = sysWithBoundary.num_sites ∧
      sysWithBoundary.z.length = sysWithBoundary.num_sites ∧
      sysWithBoundary.sublattices.length = sysWithBoundary.num_sites ∧
      (∀ t ∈ sysWithBoundary.hoppings,
        t.1 < sysWithBoundary.num_sites ∧ t.2.1 < sysWithBoundary.num_sites) ∧
      (∀ b ∈ sysWithBoundary.boundaries, ∀ t ∈ b.hoppings,
        t.1 < sysWithBoundary.num_sites ∧ t.2.1 < sysWithBoundary.num_sites) ∧
      sysWithBoundary.xyzRows.length = sysWithBoundary.num_sites ∧
      (∀ i, i < sysWithBoundary.num_sites →
        (sysWithBoundary.xyzRows.getD i []).length = 3) ∧
      (pos2 (sysWithBoundary.x, sysWithBoundary.y, sysWithBoundary.z)).length =
        sysWithBoundary.num_sites) :=
  ⟨by decide, C8_structural_invariants sysWithBoundary (by decide)⟩

theorem get_energy_display (lattice : Lattice) (k : ℕ) (t : ℚ × ℚ)
    (ht : lattice.hopping_energies.get? k = some t) :
    (t.2 = 0 → get_energy lattice k = some (Sum.inl t.1)) ∧
    (t.2 ≠ 0 → get_energy lattice k = some (Sum.inr t)) := by
  rw [get_energy, ht]
  constructor <;> intro h <;> simp [h]

/-- C9: every annotation plot_hopping_values emits belongs to a stored
bond (primary or boundary) with some type ID k, and its value is exactly
the display rule applied to the k-th hopping energy — the real part when
the imaginary part is exactly zero, the full complex value otherwise. -/
theorem C9_hopping_value_display (sys : System) (lattice : Lattice) :
    ∀ a, a ∈ plot_hopping_values sys lattice →
      ∃ i j k,
        ((i, j, k) ∈ sys.hoppings ∨ ∃ b ∈ sys.boundaries, (i, j, k) ∈ b.hoppings) ∧
        a.1 = get_energy lattice k ∧
        (∀ t, lattice.hopping_energies.get? k = some t →
          (t.2 = 0 → a.1 = some (Sum.inl t.1)) ∧ (t.2 ≠ 0 → a.1 = some (Sum.inr t))) := by
  intro a ha
  rw [plot_hopping_values, List.mem_append] at ha
  rcases ha with ha | ha
  · rw [List.mem_map] at ha
    obtain ⟨t, ht, rfl⟩ := ha
    refine ⟨t.1, t.2.1, t.2.2, Or.inl ht, rfl, ?_⟩
    intro q hq
    exact get_energy_display lattice t.2.2 q hq
  · rw [List.mem_flatMap] at ha
    obtain ⟨b, hb, ha⟩ := ha
    rw [List.mem_flatMap] at ha
    obtain ⟨t, ht, ha⟩ := ha
    have hval : a.1 = get_energy lattice t.2.2 := by
      rcases List.mem_cons.mp ha with h1 | h1
      · rw [h1]
      · rw [List.mem_singleton] at h1
        rw [h1]
    refine ⟨t.1, t.2.1, t.2.2, Or.inr ⟨b, hb, ht⟩, hval, ?_⟩
    intro q hq
    rw [hval]
    exact get_energy_display lattice t.2.2 q hq

theorem C9_hopping_value_display_witness :
    ((some (Sum.inl 3), ((1 : ℚ), (0 : ℚ))) ∈
      plot_hopping_values sysAnnotated latticeAnnotated) ∧
    (∃ i j k,
      ((i, j, k) ∈ sysAnnotated.hoppings ∨
        ∃ b ∈ sysAnnotated.boundaries, (i, j, k) ∈ b.hoppings) ∧
      (some (Sum.inl 3) : Option (ℚ ⊕ (ℚ × ℚ))) = get_energy latticeAnnotated k ∧
      (∀ t, latticeAnnotated.hopping_energies.get? k = some t →
        (t.2 = 0 → (some (Sum.inl 3) : Option (ℚ ⊕ (ℚ × ℚ))) = some (Sum.inl t.1)) ∧
        (t.2 ≠ 0 → (some (Sum.inl 3) : Option (ℚ ⊕ (ℚ × ℚ))) = some (Sum.inr t)))) := by
  have hmem : ((some (Sum.inl 3), ((1 : ℚ), (0 : ℚ))) ∈
      plot_hopping_values sysAnnotated latticeAnnotated) := by
    norm_num [plot_hopping_values, sysAnnotated, latticeAnnotated, get_energy,
      System.pos2At, addP, halfP]
  exact ⟨hmem, C9_hopping_value_display sysAnnotated latticeAnnotated _ hmem⟩

end Pybinding

